import Mathlib

/-!
Verification of the interner crate (khonsulabs/interner): a concurrent
value-deduplication pool.  The development shallowly embeds the pool engine
from src/pool.rs, the handle comparisons from src/lib.rs, the shared/global
pool capabilities from src/shared.rs and src/global.rs, and an interleaving
model of the reference-counted release protocol of SharedData::drop.

Machine values are modelled as follows: the pooled value domain is an
arbitrary type V with decidable equality (strings, paths and byte buffers in
the crate); pool capabilities are identified by a numeric pool identity
standing for the address used by the PartialEq impls of SharedPool
(Arc::ptr_eq) and GlobalPool (pointer equality); hash functions are opaque
parameters.
-/

/-- The contents of the Arc-shared Data struct from src/pool.rs: slot index,
stored value, and the owning pool capability (modelled by its numeric pool
identity).  The freeing flag is modelled separately in the concurrency model
below.  A SharedData and a Pooled handle are both references to one such
cell, so this type also plays the role of a handle. -/
structure Data (V : Type) where
  index : Nat
  value : V
  pool : Nat
  deriving DecidableEq, Repr

/-- The Pool struct from src/pool.rs: the active set (HashSet of cells keyed
by content), the slot array (Vec of optional cells; each Some entry shares
the cell with the active set), and the free list of reusable indices.  The
HashSet is modelled as a list of cells; the free list is a stack (head is
the top, matching Vec push/pop at the end). -/
structure Pool (V : Type) where
  active : List (Data V)
  slots : List (Option (Data V))
  free_slots : List Nat
  deriving DecidableEq, Repr

/-- Pool::with_capacity_and_hasher: a fresh empty pool.  The capacity is an
allocation hint only and the hasher is held by the HashSet; neither affects
the pool contents. -/
def Pool.withCapacityAndHasher (V : Type) (_capacity : Nat) : Pool V :=
  ⟨[], [], []⟩

/-- Pool::get from src/pool.rs.  Lookup in the active set is by content (the
HashSet is searched through the Borrow-ed form of the value).  On a hit the
existing cell is cloned and returned with the pool unchanged.  On a miss, an
index is popped from the free list, or a fresh slot is pushed; a new cell is
created from the value stamped with the calling pool capability, inserted
into the active set and stored in the slot array. -/
def Pool.get [DecidableEq V] (p : Pool V) (pid : Nat) (v : V) : Data V × Pool V :=
  match p.active.find? (fun c => decide (c.value = v)) with
  | some c => ⟨c, p⟩
  | none =>
    match p.free_slots with
    | index :: rest =>
      let c : Data V := ⟨index, v, pid⟩
      ⟨c, ⟨c :: p.active, p.slots.set index (some c), rest⟩⟩
    | [] =>
      let index := p.slots.length
      let c : Data V := ⟨index, v, pid⟩
      ⟨c, ⟨c :: p.active, (p.slots ++ [none]).set index (some c), []⟩⟩

/-- The removal performed under the table lock by SharedData::drop in
src/pool.rs once the re-check passes: symbols.active.remove(self) (HashSet
removal, which compares cells with the index-based SharedData equality),
symbols.slots[index] = None, and free_slots.push(index). -/
def Pool.release [DecidableEq V] (p : Pool V) (c : Data V) : Pool V :=
  ⟨p.active.eraseP (fun c2 => decide (c2.index = c.index)),
   p.slots.set c.index none,
   c.index :: p.free_slots⟩

/-- The decision logic of SharedData::drop from src/pool.rs.  strongPre is
the Arc strong count observed by the optimistic check (the dropping handle
included), freeingPre the release flag when the compare-exchange runs, and
strongAtLock the strong count re-read under the table lock (it may have
grown through a concurrent get).  Returns the pool and the release flag
after the drop logic runs.  The final Arc decrement is not part of this
function, mirroring the source where it happens when the Arc field itself is
dropped. -/
def sharedDataDrop [DecidableEq V] (p : Pool V) (c : Data V)
    (strongPre : Nat) (freeingPre : Bool) (strongAtLock : Nat) : Pool V × Bool :=
  if strongPre = 3 ∧ freeingPre = false then
    if strongAtLock > 3 then ⟨p, false⟩
    else ⟨Pool.release p c, true⟩
  else ⟨p, freeingPre⟩

/-- Pooled::ptr_eq from src/lib.rs: same pool capability (compared by pool
identity) and same slot index; the stored values are never inspected. -/
def ptr_eq (a b : Data V) : Bool :=
  decide (a.pool = b.pool) && decide (a.index = b.index)

/-- The PartialEq impl for Pooled from src/lib.rs: if both handles come from
the same pool capability, compare slot indices; otherwise dereference and
compare the stored values structurally. -/
def pooledEq [DecidableEq V] (a b : Data V) : Bool :=
  if a.pool = b.pool then decide (a.index = b.index) else decide (a.value = b.value)

/-- The Hash impl for Pooled from src/lib.rs: only the slot index is fed to
the hasher (modelled by an opaque function on indices). -/
def pooledHash (f : Nat → Nat) (h : Data V) : Nat := f h.index

/-- The PartialEq impl for SharedData from src/pool.rs (the equality the
HashSet uses between stored cells): it compares slot indices. -/
def sharedDataEq (a b : Data V) : Bool := decide (a.index = b.index)

/-- The Hash impl for SharedData from src/pool.rs: the stored value is fed
to the hasher (modelled by an opaque function on values). -/
def sharedDataHash (f : V → Nat) (c : Data V) : Nat := f c.value

/-- Well-formedness of a pool: the slot-table correspondence (an active cell
occupies exactly its slot entry and every occupied slot entry is an active
cell with that index), free-list indices have empty slot entries, and the
dedup invariant that at most one resident cell exists per distinct value. -/
structure Pool.wf (p : Pool V) : Prop where
  activeNodup : p.active.Nodup
  freeNodup : p.free_slots.Nodup
  activeSlots : ∀ c, c ∈ p.active → p.slots[c.index]? = some (some c)
  slotsActive : ∀ i c, p.slots[i]? = some (some c) → c.index = i ∧ c ∈ p.active
  freeEmpty : ∀ i, i ∈ p.free_slots → p.slots[i]? = some none
  uniqueValue : ∀ c1, c1 ∈ p.active → ∀ c2, c2 ∈ p.active → c1.value = c2.value → c1 = c2

/-- All cells of a pool are stamped with the pool identity of the owning
capability (Pool::get stores pool.clone() into each new cell). -/
def Pool.stamped (p : Pool V) (pid : Nat) : Prop :=
  ∀ c, c ∈ p.active → c.pool = pid

/-- An Arc-shared cell as seen by the release protocol: its strong count and
its freeing (release-in-progress) flag.  Cells are identified by a
generation number (position in the allocation list) so that a removed cell
and a later re-created cell for the same value stay distinct. -/
structure ArcCell where
  strong : Nat
  freeing : Bool
  deriving DecidableEq, Repr

/-- Program counter of one thread running the get-then-drop loop of the
no-leak scenario.  The drop of a handle decomposes into the atomic steps of
SharedData::drop: read the strong count (holding), attempt the
compare-exchange on the freeing flag (tryCas), run the locked re-check and
possible removal (locked), and finally decrement the strong count as the
Arc field itself is dropped (decRef).  Each non-ready phase records the
generation of the cell the held handle points to. -/
inductive Phase where
  | ready : Phase
  | holding : Nat → Phase
  | tryCas : Nat → Phase
  | locked : Nat → Phase
  | decRef : Nat → Phase
  deriving DecidableEq, Repr

/-- One thread: its phase and the number of get-then-drop iterations it has
not yet started. -/
structure ThreadSt where
  phase : Phase
  iters : Nat
  deriving DecidableEq, Repr

/-- Global state of the concurrency model for a single pooled value K: all
cells ever allocated for K (indexed by generation), the generation currently
resident in the table (the active set and the slot array each hold one Arc
clone of it, accounting for 2 in its strong count), and the threads. -/
structure GState where
  cells : List ArcCell
  resident : Option Nat
  threads : List ThreadSt
  deriving DecidableEq, Repr

/-- Strong count of a generation (0 when out of range). -/
def strongOf (g : GState) (gen : Nat) : Nat :=
  match g.cells[gen]? with
  | some c => c.strong
  | none => 0

/-- Freeing flag of a generation (false when out of range). -/
def freeingOf (g : GState) (gen : Nat) : Bool :=
  match g.cells[gen]? with
  | some c => c.freeing
  | none => false

/-- Increment a cell's strong count (Arc clone). -/
def bumpStrong (cells : List ArcCell) (gen : Nat) : List ArcCell :=
  match cells[gen]? with
  | some c => cells.set gen ⟨c.strong + 1, c.freeing⟩
  | none => cells

/-- Decrease a cell's strong count by k (dropping k Arc clones). -/
def subStrong (cells : List ArcCell) (gen k : Nat) : List ArcCell :=
  match cells[gen]? with
  | some c => cells.set gen ⟨c.strong - k, c.freeing⟩
  | none => cells

/-- Store a value into a cell's freeing flag. -/
def setFreeing (cells : List ArcCell) (gen : Nat) (b : Bool) : List ArcCell :=
  match cells[gen]? with
  | some c => cells.set gen ⟨c.strong, b⟩
  | none => cells

/-- One atomic step of the scheduled thread.  A get (performed under the
table lock, hence one atomic step) either clones the resident cell or
allocates a fresh one with strong count 3 (the returned handle plus the two
table-held owners: one clone in the active set, one in the slot array).  The
drop phases follow SharedData::drop from src/pool.rs: the optimistic
strong-count read, the compare-exchange on the freeing flag, the locked
re-check that either aborts (clearing the flag, count grew past 3) or
removes the cell from the table (releasing the two table-held owners), and
the final decrement of the dropped handle itself. -/
def step (g : GState) (tid : Nat) : GState :=
  match g.threads[tid]? with
  | none => g
  | some t =>
    match t.phase, t.iters with
    | .ready, 0 => g
    | .ready, n+1 =>
      match g.resident with
      | some gen =>
        ⟨bumpStrong g.cells gen, g.resident, g.threads.set tid ⟨.holding gen, n⟩⟩
      | none =>
        let gen := g.cells.length
        ⟨g.cells ++ [⟨3, false⟩], some gen, g.threads.set tid ⟨.holding gen, n⟩⟩
    | .holding gen, n =>
      if strongOf g gen = 3 then
        ⟨g.cells, g.resident, g.threads.set tid ⟨.tryCas gen, n⟩⟩
      else
        ⟨g.cells, g.resident, g.threads.set tid ⟨.decRef gen, n⟩⟩
    | .tryCas gen, n =>
      if freeingOf g gen then
        ⟨g.cells, g.resident, g.threads.set tid ⟨.decRef gen, n⟩⟩
      else
        ⟨setFreeing g.cells gen true, g.resident, g.threads.set tid ⟨.locked gen, n⟩⟩
    | .locked gen, n =>
      if strongOf g gen > 3 then
        ⟨setFreeing g.cells gen false, g.resident, g.threads.set tid ⟨.decRef gen, n⟩⟩
      else if g.resident = some gen then
        ⟨subStrong g.cells gen 2, none, g.threads.set tid ⟨.decRef gen, n⟩⟩
      else
        ⟨g.cells, g.resident, g.threads.set tid ⟨.decRef gen, n⟩⟩
    | .decRef gen, n =>
      ⟨subStrong g.cells gen 1, g.resident, g.threads.set tid ⟨.ready, n⟩⟩

/-- Run the model under a schedule (the list of thread ids picked to step). -/
def run (g : GState) (sched : List Nat) : GState := sched.foldl step g

/-- Initial state: no cell allocated, value not resident, each of nthreads
threads will perform iters get-then-drop iterations. -/
def initState (nthreads iters : Nat) : GState :=
  ⟨[], none, List.replicate nthreads ⟨.ready, iters⟩⟩

/-- Whether a thread currently holds a handle to the given generation (its
Arc clone has not yet been released by its decRef step). -/
def holdsGen (t : ThreadSt) (gen : Nat) : Bool :=
  match t.phase with
  | .ready => false
  | .holding g => g == gen
  | .tryCas g => g == gen
  | .locked g => g == gen
  | .decRef g => g == gen

/-- Number of external handles to a generation held across all threads. -/
def extCount (g : GState) (gen : Nat) : Nat :=
  g.threads.countP (fun t => holdsGen t gen)

/-- A thread that has finished all its iterations and holds no handle. -/
def threadDone (t : ThreadSt) : Bool := t.phase == Phase.ready && t.iters == 0

/-- Whether pooled() would still report the value K: some generation for K
is resident in the table. -/
def pooledContainsK (g : GState) : Bool := g.resident.isSome

/-- The refcount bookkeeping invariant of the concurrency model: the strong
count of every generation equals the number of external handles held by
threads, plus exactly 2 for the table-held owners while the generation is
resident; handles and residency only refer to allocated generations. -/
def refInv (g : GState) : Prop :=
  (∀ gen, strongOf g gen = extCount g gen + (if g.resident = some gen then 2 else 0)) ∧
  (∀ t, t ∈ g.threads → ∀ gen, holdsGen t gen = true → gen < g.cells.length) ∧
  (∀ gen, g.resident = some gen → gen < g.cells.length)

/-- The state machine of a GlobalPool from src/global.rs: the Mutex-guarded
GlobalPoolState.  A hasher factory fn() -> S is modelled as a function from
Unit. -/
inductive GlobalPoolState (H V : Type) where
  | initializing : GlobalPoolState H V
  | lazyInit : Nat → (Unit → H) → GlobalPoolState H V
  | staticInit : Nat → H → GlobalPoolState H V
  | initialized : H → Pool V → GlobalPoolState H V

/-- with_active_symbols for a GlobalPool from src/global.rs: under the lock,
if the state is not Initialized, construct the pool (materializing the
hasher from the factory in the LazyInitialize case) and store the
Initialized state; then run the caller's logic on the pool.  Returns the
resulting state and whether a table was constructed during this access;
none models the unreachable! panic on the transient Initializing state. -/
def withActiveSymbols (s : GlobalPoolState H V) (logic : Pool V → Pool V) :
    Option (GlobalPoolState H V × Bool) :=
  match s with
  | .initialized h p => some ⟨.initialized h (logic p), false⟩
  | .lazyInit capacity f =>
    some ⟨.initialized (f ()) (logic (Pool.withCapacityAndHasher V capacity)), true⟩
  | .staticInit capacity h =>
    some ⟨.initialized h (logic (Pool.withCapacityAndHasher V capacity)), true⟩
  | .initializing => none

/-- Run a sequence of accesses against a global pool, counting how many of
them constructed the table. -/
def runAccesses (s : GlobalPoolState H V) :
    List (Pool V → Pool V) → Option (GlobalPoolState H V × Nat)
  | [] => some ⟨s, 0⟩
  | logic :: rest =>
    match withActiveSymbols s logic with
    | none => none
    | some ⟨s2, constructed⟩ =>
      match runAccesses s2 rest with
      | none => none
      | some ⟨s3, cnt⟩ => some ⟨s3, (if constructed then 1 else 0) + cnt⟩

/-- Whether the global pool state is Initialized. -/
def isInitialized : GlobalPoolState H V → Bool
  | .initialized _ _ => true
  | _ => false

/-- The init field of a StaticPooledString (and its path/buffer siblings)
from src/global.rs: either a literal value or a zero-argument factory, each
bound to a pool capability (modelled by its pool identity). -/
inductive StaticInit (V : Type) where
  | staticValue : Nat → V → StaticInit V
  | fnValue : Nat → (Unit → V) → StaticInit V

/-- A StaticPooled accessor: its binding plus the OnceLock write-once cell
holding the resolved handle. -/
structure StaticPooled (V : Type) where
  init : StaticInit V
  cell : Option (Data V)

/-- Resolve the binding into the bound pool identity and the value (calling
the factory in the Fn case). -/
def resolveInit : StaticInit V → Nat × V
  | .staticValue pid v => ⟨pid, v⟩
  | .fnValue pid f => ⟨pid, f ()⟩

/-- StaticPooledString::get from src/global.rs: OnceLock::get_or_init.  If
the cell is populated, return the stored handle with no resolution;
otherwise resolve the value, call the bound pool's get, store the handle
and return it.  The OnceLock serializes concurrent first-time calls, so the
accesses are modelled as a sequence.  Returns the handle, the accessor and
pool states, and whether a resolution happened. -/
def staticGet [DecidableEq V] (s : StaticPooled V) (p : Pool V) :
    Data V × StaticPooled V × Pool V × Bool :=
  match s.cell with
  | some h => ⟨h, s, p, false⟩
  | none =>
    let r := resolveInit s.init
    let hp := Pool.get p r.1 r.2
    ⟨hp.1, ⟨s.init, some hp.1⟩, hp.2, true⟩

/-- Result of a sequence of accessor gets: the returned handles, the final
accessor and pool states, and how many resolutions happened. -/
structure StaticRun (V : Type) where
  returned : List (Data V)
  state : StaticPooled V
  pool : Pool V
  resolutions : Nat

/-- Run n successive calls of StaticPooled get. -/
def runStaticGets [DecidableEq V] (s : StaticPooled V) (p : Pool V) :
    Nat → StaticRun V
  | 0 => ⟨[], s, p, 0⟩
  | n+1 =>
    let r := staticGet s p
    let rest := runStaticGets r.2.1 r.2.2.1 n
    ⟨r.1 :: rest.returned, rest.state, rest.pool,
     (if r.2.2.2 then 1 else 0) + rest.resolutions⟩

/-! Helper lemmas about lists and about Pool.get. -/

/-- Removing by a predicate that matches exactly one element c of a
duplicate-free list leaves precisely the other elements. -/
theorem mem_eraseP_unique {α : Type} {p : α → Bool} {l : List α} {c : α}
    (hc : c ∈ l) (hpc : p c = true) (hu : ∀ x, x ∈ l → p x = true → x = c)
    (hnd : l.Nodup) : ∀ x, x ∈ l.eraseP p ↔ (x ∈ l ∧ x ≠ c) := by
  induction l with
  | nil => cases hc
  | cons a t ih =>
    rcases List.nodup_cons.mp hnd with ⟨hna, hndt⟩
    by_cases hpa : p a = true
    · have ha : a = c := hu a (List.mem_cons_self a t) hpa
      rw [List.eraseP_cons_of_pos hpa]
      intro x
      constructor
      · intro hx
        refine ⟨List.mem_cons_of_mem _ hx, ?_⟩
        intro hxc
        subst hxc
        subst ha
        exact hna hx
      · rintro ⟨hx, hxc⟩
        rcases List.mem_cons.mp hx with h | h
        · exact absurd (h.trans ha) hxc
        · exact h
    · have hac : a ≠ c := fun h => hpa (h ▸ hpc)
      have hct : c ∈ t := by
        rcases List.mem_cons.mp hc with h | h
        · exact absurd h.symm hac
        · exact h
      rw [List.eraseP_cons_of_neg hpa]
      intro x
      have iht := ih hct (fun x hx hpx => hu x (List.mem_cons_of_mem _ hx) hpx) hndt
      constructor
      · intro hx
        rcases List.mem_cons.mp hx with h | h
        · exact ⟨h ▸ List.mem_cons_self a t, h ▸ hac⟩
        · rcases (iht x).mp h with ⟨hxt, hxc⟩
          exact ⟨List.mem_cons_of_mem _ hxt, hxc⟩
      · rintro ⟨hx, hxc⟩
        rcases List.mem_cons.mp hx with h | h
        · exact h ▸ List.mem_cons_self a _
        · exact List.mem_cons_of_mem _ ((iht x).mpr ⟨h, hxc⟩)

/-- The handle returned by Pool.get stores the requested value. -/
theorem get_value [DecidableEq V] (p : Pool V) (pid : Nat) (v : V) :
    (Pool.get p pid v).1.value = v := by
  unfold Pool.get
  cases hf : p.active.find? (fun c => decide (c.value = v)) with
  | some c =>
    have := List.find?_some hf
    simpa using this
  | none => cases p.free_slots <;> simp

/-- The handle returned by Pool.get is stamped with the pool identity,
provided all resident cells of the pool are. -/
theorem get_pool_id [DecidableEq V] (p : Pool V) (pid : Nat) (v : V)
    (hs : Pool.stamped p pid) : (Pool.get p pid v).1.pool = pid := by
  unfold Pool.get
  cases hf : p.active.find? (fun c => decide (c.value = v)) with
  | some c => exact hs c (List.mem_of_find?_eq_some hf)
  | none => cases p.free_slots <;> simp

/-- Calling Pool.get twice for the same value returns the very same cell. -/
theorem get_get_same [DecidableEq V] (p : Pool V) (pid : Nat) (v : V) :
    (Pool.get (Pool.get p pid v).2 pid v).1 = (Pool.get p pid v).1 := by
  unfold Pool.get
  cases hf : p.active.find? (fun c => decide (c.value = v)) with
  | some c => simp [hf]
  | none =>
    cases hfs : p.free_slots with
    | cons i rest =>
      simp only [hf]
      rw [List.find?_cons_of_pos _ (by simp)]
    | nil =>
      simp only [hf]
      rw [List.find?_cons_of_pos _ (by simp)]

/-- C1: for every value v and every pool, calling get twice while the first
handle is alive returns handles a, b with ptr_eq a b = true; ptr_eq holds
iff the two handles have the same pool identity and the same slot index,
and it never compares the stored contents (it is invariant under replacing
the values of both handles). -/
theorem c1_identity_idempotence [DecidableEq V] (p : Pool V) (pid : Nat) (v : V) :
    ptr_eq (Pool.get p pid v).1 (Pool.get (Pool.get p pid v).2 pid v).1 = true
    ∧ (∀ a b : Data V, ptr_eq a b = true ↔ (a.pool = b.pool ∧ a.index = b.index))
    ∧ (∀ (a b : Data V) (w w' : V),
        ptr_eq ⟨a.index, w, a.pool⟩ ⟨b.index, w', b.pool⟩ = ptr_eq a b) := by
  refine ⟨?_, ?_, ?_⟩
  · rw [get_get_same]
    simp [ptr_eq]
  · intro a b
    simp [ptr_eq]
  · intro a b w w'
    simp [ptr_eq]

/-- C5: the PartialEq of handles dispatches on pool identity (same pool:
compare slot indices only; different pools: compare stored values
structurally); and two distinct pools each holding content-equal value v
produce handles with ptr_eq false but structural equality true, in both
argument orders. -/
theorem c5_content_equality_dispatch [DecidableEq V] :
    (∀ a b : Data V, a.pool = b.pool → pooledEq a b = decide (a.index = b.index))
    ∧ (∀ a b : Data V, a.pool ≠ b.pool → pooledEq a b = decide (a.value = b.value))
    ∧ (∀ (p q : Pool V) (pid qid : Nat) (v : V),
        Pool.stamped p pid → Pool.stamped q qid → pid ≠ qid →
        ptr_eq (Pool.get p pid v).1 (Pool.get q qid v).1 = false
        ∧ pooledEq (Pool.get p pid v).1 (Pool.get q qid v).1 = true
        ∧ pooledEq (Pool.get q qid v).1 (Pool.get p pid v).1 = true) := by
  refine ⟨?_, ?_, ?_⟩
  · intro a b h
    simp [pooledEq, h]
  · intro a b h
    simp [pooledEq, h]
  · intro p q pid qid v hp hq hne
    have hpv := get_value p pid v
    have hqv := get_value q qid v
    have hpi := get_pool_id p pid v hp
    have hqi := get_pool_id q qid v hq
    refine ⟨?_, ?_, ?_⟩
    · simp [ptr_eq, hpi, hqi, hne]
    · simp [pooledEq, hpi, hqi, hne, hpv, hqv]
    · simp [pooledEq, hpi, hqi, Ne.symm hne, hpv, hqv]

/-- Witness for C5 at concrete inputs: two fresh pools with identities 0 and
1 and the value 7. -/
theorem c5_content_equality_dispatch_witness :
    ptr_eq (Pool.get (⟨[], [], []⟩ : Pool Nat) 0 7).1 (Pool.get ⟨[], [], []⟩ 1 7).1 = false
    ∧ pooledEq (Pool.get (⟨[], [], []⟩ : Pool Nat) 0 7).1 (Pool.get ⟨[], [], []⟩ 1 7).1 = true
    ∧ pooledEq (Pool.get (⟨[], [], []⟩ : Pool Nat) 1 7).1 (Pool.get ⟨[], [], []⟩ 0 7).1 = true :=
  c5_content_equality_dispatch.2.2 ⟨[], [], []⟩ ⟨[], [], []⟩ 0 1 7
    (fun c hc => absurd hc (List.not_mem_nil c))
    (fun c hc => absurd hc (List.not_mem_nil c))
    (by decide)

/-- C6 counterexample: the claim states that the table's internal cell
equality compares content, but the PartialEq impl for SharedData compares
slot indices: two cells at the same index with different stored values
compare equal although their values differ. -/
theorem c6_counterexample :
    sharedDataEq (⟨0, "a", 0⟩ : Data String) ⟨0, "b", 0⟩ = true
    ∧ ("a" : String) ≠ "b" := by
  exact ⟨rfl, by decide⟩

/-- C6 amended: the internal Hash is content-based (it depends only on the
stored value), but the internal cell equality is index-based; content-based
behaviour of the dedup lookup holds in the sense that, for two cells
resident in the same well-formed table, index equality coincides with
content equality. -/
theorem c6_internal_hash_and_equality [DecidableEq V] :
    (∀ (f : V → Nat) (c1 c2 : Data V), c1.value = c2.value →
      sharedDataHash f c1 = sharedDataHash f c2)
    ∧ (∀ c1 c2 : Data V, sharedDataEq c1 c2 = decide (c1.index = c2.index))
    ∧ (∀ p : Pool V, p.wf → ∀ c1, c1 ∈ p.active → ∀ c2, c2 ∈ p.active →
        (sharedDataEq c1 c2 = true ↔ c1.value = c2.value)) := by
  refine ⟨?_, ?_, ?_⟩
  · intro f c1 c2 h
    simp [sharedDataHash, h]
  · intro c1 c2
    rfl
  · intro p hwf c1 h1 c2 h2
    constructor
    · intro he
      have hidx : c1.index = c2.index := by simpa [sharedDataEq] using he
      have hs1 := hwf.activeSlots c1 h1
      have hs2 := hwf.activeSlots c2 h2
      rw [hidx] at hs1
      rw [hs2] at hs1
      cases hs1
      rfl
    · intro hv
      have := hwf.uniqueValue c1 h1 c2 h2 hv
      simp [sharedDataEq, this]

/-- Witness for C6 amended: a one-cell well-formed pool. -/
theorem c6_internal_hash_and_equality_witness :
    sharedDataEq (⟨0, 5, 0⟩ : Data Nat) ⟨0, 5, 0⟩ = true ↔ (5 : Nat) = 5 :=
  c6_internal_hash_and_equality.2.2 ⟨[⟨0, 5, 0⟩], [some ⟨0, 5, 0⟩], []⟩
    (by
      refine ⟨by simp, by simp, ?_, ?_, ?_, ?_⟩
      · intro c hc
        simp at hc
        subst hc
        rfl
      · intro i c hic
        cases i with
        | zero =>
          simp at hic
          subst hic
          exact ⟨rfl, by simp⟩
        | succ n => simp at hic
      · intro i hi
        simp at hi
      · intro c1 hc1 c2 hc2 _
        simp at hc1 hc2
        rw [hc1, hc2])
    ⟨0, 5, 0⟩ (by simp) ⟨0, 5, 0⟩ (by simp)

/-- The empty pool is well-formed. -/
theorem wf_empty : (⟨[], [], []⟩ : Pool V).wf := by
  refine ⟨by simp, by simp, ?_, ?_, ?_, ?_⟩
  · intro c hc
    cases hc
  · intro i c h
    simp at h
  · intro i h
    cases h
  · intro c1 h1
    cases h1

/-- Pool.get preserves well-formedness. -/
theorem wf_get [DecidableEq V] (p : Pool V) (pid : Nat) (v : V) (hwf : p.wf) :
    (Pool.get p pid v).2.wf := by
  unfold Pool.get
  cases hf : p.active.find? (fun c => decide (c.value = v)) with
  | some c => simpa using hwf
  | none =>
    have hnone : ∀ x, x ∈ p.active → x.value ≠ v := by
      intro x hx
      have := List.find?_eq_none.mp hf x hx
      simpa using this
    cases hfs : p.free_slots with
    | cons i rest =>
      simp only
      have hi_free : i ∈ p.free_slots := by rw [hfs]; exact List.mem_cons_self i rest
      have hi_slot : p.slots[i]? = some none := hwf.freeEmpty i hi_free
      have hi_len : i < p.slots.length := (List.getElem?_eq_some.mp hi_slot).1
      have hrest_ne : ∀ j, j ∈ rest → j ≠ i := by
        intro j hj hji
        have := hwf.freeNodup
        rw [hfs] at this
        exact (List.nodup_cons.mp this).1 (hji ▸ hj)
      have hcnot : (⟨i, v, pid⟩ : Data V) ∉ p.active := by
        intro hmem
        exact hnone _ hmem rfl
      have hidx_ne : ∀ c2, c2 ∈ p.active → c2.index ≠ i := by
        intro c2 hc2 hci
        have h1 := hwf.activeSlots c2 hc2
        rw [hci, hi_slot] at h1
        cases h1
      refine ⟨List.nodup_cons.mpr ⟨hcnot, hwf.activeNodup⟩, ?_, ?_, ?_, ?_, ?_⟩
      · have := hwf.freeNodup
        rw [hfs] at this
        exact (List.nodup_cons.mp this).2
      · intro c2 hc2
        rcases List.mem_cons.mp hc2 with h | h
        · subst h
          simpa using List.getElem?_set_self hi_len
        · rw [List.getElem?_set_ne (Ne.symm (hidx_ne c2 h))]
          exact hwf.activeSlots c2 h
      · intro j c2 hj
        by_cases hji : j = i
        · subst hji
          rw [List.getElem?_set_self hi_len] at hj
          cases hj
          exact ⟨rfl, List.mem_cons_self _ _⟩
        · rw [List.getElem?_set_ne (Ne.symm hji)] at hj
          rcases hwf.slotsActive j c2 hj with ⟨h1, h2⟩
          exact ⟨h1, List.mem_cons_of_mem _ h2⟩
      · intro j hj
        have hjne : j ≠ i := hrest_ne j hj
        rw [List.getElem?_set_ne (Ne.symm hjne)]
        exact hwf.freeEmpty j (by rw [hfs]; exact List.mem_cons_of_mem _ hj)
      · intro c1 h1 c2 h2 hv
        rcases List.mem_cons.mp h1 with h1 | h1 <;> rcases List.mem_cons.mp h2 with h2 | h2
        · rw [h1, h2]
        · subst h1
          exact absurd hv.symm (hnone c2 h2)
        · subst h2
          exact absurd hv (hnone c1 h1)
        · exact hwf.uniqueValue c1 h1 c2 h2 hv
    | nil =>
      simp only
      have hlen : p.slots.length < (p.slots ++ [none]).length := by simp
      have hcnot : (⟨p.slots.length, v, pid⟩ : Data V) ∉ p.active := by
        intro hmem
        exact hnone _ hmem rfl
      have hidx_lt : ∀ c2, c2 ∈ p.active → c2.index < p.slots.length := by
        intro c2 hc2
        exact (List.getElem?_eq_some.mp (hwf.activeSlots c2 hc2)).1
      refine ⟨List.nodup_cons.mpr ⟨hcnot, hwf.activeNodup⟩, by simp, ?_, ?_, ?_, ?_⟩
      · intro c2 hc2
        rcases List.mem_cons.mp hc2 with h | h
        · subst h
          simp [List.getElem?_set_self hlen]
        · have hne : c2.index ≠ p.slots.length := Nat.ne_of_lt (hidx_lt c2 h)
          rw [List.getElem?_set_ne (Ne.symm hne), List.getElem?_append]
          rw [if_pos (hidx_lt c2 h)]
          exact hwf.activeSlots c2 h
      · intro j c2 hj
        by_cases hji : j = p.slots.length
        · subst hji
          rw [List.getElem?_set_self hlen] at hj
          cases hj
          exact ⟨rfl, List.mem_cons_self _ _⟩
        · rw [List.getElem?_set_ne (Ne.symm hji), List.getElem?_append] at hj
          by_cases hlt : j < p.slots.length
          · rw [if_pos hlt] at hj
            rcases hwf.slotsActive j c2 hj with ⟨h1, h2⟩
            exact ⟨h1, List.mem_cons_of_mem _ h2⟩
          · rw [if_neg hlt] at hj
            have hgt : p.slots.length < j :=
              Nat.lt_of_le_of_ne (Nat.le_of_not_lt hlt) (Ne.symm hji)
            have hnone2 : ([none] : List (Option (Data V)))[j - p.slots.length]? = none := by
              apply List.getElem?_eq_none
              simp
              omega
            rw [hnone2] at hj
            cases hj
      · intro j hj
        cases hj
      · intro c1 h1 c2 h2 hv
        rcases List.mem_cons.mp h1 with h1 | h1 <;> rcases List.mem_cons.mp h2 with h2 | h2
        · rw [h1, h2]
        · subst h1
          exact absurd hv.symm (hnone c2 h2)
        · subst h2
          exact absurd hv (hnone c1 h1)
        · exact hwf.uniqueValue c1 h1 c2 h2 hv

/-- Pool.release of a resident cell preserves well-formedness. -/
theorem wf_release [DecidableEq V] (p : Pool V) (c : Data V) (hwf : p.wf)
    (hc : c ∈ p.active) : (Pool.release p c).wf := by
  have hci : p.slots[c.index]? = some (some c) := hwf.activeSlots c hc
  have hci_len : c.index < p.slots.length := (List.getElem?_eq_some.mp hci).1
  have huniq : ∀ x, x ∈ p.active →
      (fun c2 : Data V => decide (c2.index = c.index)) x = true → x = c := by
    intro x hx hpx
    have hxi : x.index = c.index := by simpa using hpx
    have h1 := hwf.activeSlots x hx
    rw [hxi, hci] at h1
    cases h1
    rfl
  have hmem := mem_eraseP_unique hc (by simp) huniq hwf.activeNodup
  have hidx_ne : ∀ x, x ∈ p.active → x ≠ c → x.index ≠ c.index := by
    intro x hx hxc hxi
    exact hxc (huniq x hx (by simpa using hxi))
  have hcfree : c.index ∉ p.free_slots := by
    intro hmemf
    have := hwf.freeEmpty c.index hmemf
    rw [hci] at this
    cases this
  unfold Pool.release
  refine ⟨?_, ?_, ?_, ?_, ?_, ?_⟩
  · exact (List.eraseP_sublist p.active).nodup hwf.activeNodup
  · exact List.nodup_cons.mpr ⟨hcfree, hwf.freeNodup⟩
  · intro x hx
    rcases (hmem x).mp hx with ⟨hxa, hxc⟩
    rw [List.getElem?_set_ne (Ne.symm (hidx_ne x hxa hxc))]
    exact hwf.activeSlots x hxa
  · intro j c2 hj
    by_cases hji : j = c.index
    · subst hji
      rw [List.getElem?_set_self hci_len] at hj
      cases hj
    · rw [List.getElem?_set_ne (Ne.symm hji)] at hj
      rcases hwf.slotsActive j c2 hj with ⟨h1, h2⟩
      refine ⟨h1, (hmem c2).mpr ⟨h2, ?_⟩⟩
      intro hc2c
      subst hc2c
      exact hji (h1 ▸ rfl)
  · intro j hj
    rcases List.mem_cons.mp hj with h | h
    · subst h
      rw [List.getElem?_set_self hci_len]
    · have hjne : j ≠ c.index := by
        intro hje
        exact hcfree (hje ▸ h)
      rw [List.getElem?_set_ne (Ne.symm hjne)]
      exact hwf.freeEmpty j h
  · intro c1 h1 c2 h2 hv
    rcases (hmem c1).mp h1 with ⟨h1a, _⟩
    rcases (hmem c2).mp h2 with ⟨h2a, _⟩
    exact hwf.uniqueValue c1 h1a c2 h2a hv

/-- C4: the slot-table correspondence invariant (an index appears in the
active set iff the slot array entry at that index is non-empty, and a
free-list index has an empty slot entry and no active-set entry, together
with the uniqueness facts these rely on, packaged as Pool.wf) is preserved
by Pool.get and by the release performed on last-handle drop. -/
theorem c4_invariant_preserved [DecidableEq V] :
    (∀ (p : Pool V) (pid : Nat) (v : V), p.wf → (Pool.get p pid v).2.wf)
    ∧ (∀ (p : Pool V) (c : Data V), p.wf → c ∈ p.active → (Pool.release p c).wf) :=
  ⟨fun p pid v h => wf_get p pid v h, fun p c h hc => wf_release p c h hc⟩

/-- Witness for C4: get on the empty pool, and release of the single cell of
a one-cell pool. -/
theorem c4_invariant_preserved_witness :
    (Pool.get (⟨[], [], []⟩ : Pool Nat) 0 7).2.wf
    ∧ (Pool.release (⟨[⟨0, 5, 0⟩], [some ⟨0, 5, 0⟩], []⟩ : Pool Nat) ⟨0, 5, 0⟩).wf :=
  ⟨c4_invariant_preserved.1 ⟨[], [], []⟩ 0 7 wf_empty,
   c4_invariant_preserved.2 ⟨[⟨0, 5, 0⟩], [some ⟨0, 5, 0⟩], []⟩ ⟨0, 5, 0⟩
     (by
       refine ⟨by simp, by simp, ?_, ?_, ?_, ?_⟩
       · intro c hc
         simp at hc
         subst hc
         rfl
       · intro i c hic
         cases i with
         | zero =>
           simp at hic
           subst hic
           exact ⟨rfl, by simp⟩
         | succ n => simp at hic
       · intro i hi
         simp at hi
       · intro c1 hc1 c2 hc2 _
         simp at hc1 hc2
         rw [hc1, hc2])
     (by simp)⟩

/-- C2: a handle drop that observes strong count 3 (itself plus the two
table-held owners) and wins the test-and-set on the freeing flag re-checks
the count under the table lock.  If the count grew (a concurrent get made a
fresh handle), it clears the flag and leaves the table unchanged with the
cell still resident; otherwise it removes the cell from the active set,
clears the slot array entry at the cell's index, and pushes that index onto
the free list. -/
theorem c2_release_protocol [DecidableEq V] (p : Pool V) (c : Data V)
    (strongAtLock : Nat) (hwf : p.wf) (hc : c ∈ p.active) :
    (strongAtLock > 3 →
      sharedDataDrop p c 3 false strongAtLock = ⟨p, false⟩
      ∧ c ∈ (sharedDataDrop p c 3 false strongAtLock).1.active)
    ∧ (¬ strongAtLock > 3 →
      (sharedDataDrop p c 3 false strongAtLock).2 = true
      ∧ c ∉ (sharedDataDrop p c 3 false strongAtLock).1.active
      ∧ (∀ x, x ∈ (sharedDataDrop p c 3 false strongAtLock).1.active ↔
          (x ∈ p.active ∧ x ≠ c))
      ∧ (sharedDataDrop p c 3 false strongAtLock).1.slots[c.index]? = some none
      ∧ (sharedDataDrop p c 3 false strongAtLock).1.free_slots = c.index :: p.free_slots) := by
  have hci : p.slots[c.index]? = some (some c) := hwf.activeSlots c hc
  have hci_len : c.index < p.slots.length := (List.getElem?_eq_some.mp hci).1
  have huniq : ∀ x, x ∈ p.active →
      (fun c2 : Data V => decide (c2.index = c.index)) x = true → x = c := by
    intro x hx hpx
    have hxi : x.index = c.index := by simpa using hpx
    have h1 := hwf.activeSlots x hx
    rw [hxi, hci] at h1
    cases h1
    rfl
  have hmem := mem_eraseP_unique hc (by simp) huniq hwf.activeNodup
  constructor
  · intro hgt
    rw [sharedDataDrop, if_pos ⟨rfl, rfl⟩, if_pos hgt]
    exact ⟨rfl, hc⟩
  · intro hle
    rw [sharedDataDrop, if_pos ⟨rfl, rfl⟩, if_neg hle]
    refine ⟨rfl, ?_, ?_, ?_, rfl⟩
    · intro habs
      exact ((hmem c).mp habs).2 rfl
    · exact hmem
    · exact List.getElem?_set_self hci_len

/-- Witness for C2: the one-cell pool, exercising both the count-grew abort
(strong count 4 at the lock) and the removal (strong count 3). -/
theorem c2_release_protocol_witness :
    sharedDataDrop (⟨[⟨0, 5, 0⟩], [some ⟨0, 5, 0⟩], []⟩ : Pool Nat) ⟨0, 5, 0⟩ 3 false 4
      = ⟨⟨[⟨0, 5, 0⟩], [some ⟨0, 5, 0⟩], []⟩, false⟩
    ∧ (⟨0, 5, 0⟩ : Data Nat) ∉
        (sharedDataDrop (⟨[⟨0, 5, 0⟩], [some ⟨0, 5, 0⟩], []⟩ : Pool Nat) ⟨0, 5, 0⟩ 3 false 3).1.active
    ∧ (sharedDataDrop (⟨[⟨0, 5, 0⟩], [some ⟨0, 5, 0⟩], []⟩ : Pool Nat) ⟨0, 5, 0⟩ 3 false 3).1.free_slots
      = [0] := by
  have hwf1 : (⟨[⟨0, 5, 0⟩], [some ⟨0, 5, 0⟩], []⟩ : Pool Nat).wf := by
    refine ⟨by simp, by simp, ?_, ?_, ?_, ?_⟩
    · intro c hc
      simp at hc
      subst hc
      rfl
    · intro i c hic
      cases i with
      | zero =>
        simp at hic
        subst hic
        exact ⟨rfl, by simp⟩
      | succ n => simp at hic
    · intro i hi
      simp at hi
    · intro c1 hc1 c2 hc2 _
      simp at hc1 hc2
      rw [hc1, hc2]
  have hm : (⟨0, 5, 0⟩ : Data Nat) ∈ (⟨[⟨0, 5, 0⟩], [some ⟨0, 5, 0⟩], []⟩ : Pool Nat).active := by
    simp
  refine ⟨?_, ?_, ?_⟩
  · exact ((c2_release_protocol _ _ 4 hwf1 hm).1 (by decide)).1
  · exact ((c2_release_protocol _ _ 3 hwf1 hm).2 (by decide)).2.1
  · exact ((c2_release_protocol _ _ 3 hwf1 hm).2 (by decide)).2.2.2.2

/-- C10: for two handles simultaneously live in the same well-formed pool,
structural equality, slot-index equality and ptr_eq all coincide, and the
index-based Hash is consistent with the equality, so the handles can key a
hash map within one pool. -/
theorem c10_same_pool_equalities_coincide [DecidableEq V] (p : Pool V) (hwf : p.wf)
    (h1 h2 : Data V) (m1 : h1 ∈ p.active) (m2 : h2 ∈ p.active)
    (hpool : h1.pool = h2.pool) :
    (pooledEq h1 h2 = true ↔ h1.index = h2.index)
    ∧ (h1.index = h2.index ↔ h1.value = h2.value)
    ∧ ptr_eq h1 h2 = pooledEq h1 h2
    ∧ (∀ f : Nat → Nat, pooledEq h1 h2 = true → pooledHash f h1 = pooledHash f h2) := by
  have hiv : h1.index = h2.index ↔ h1.value = h2.value := by
    constructor
    · intro hidx
      have hs1 := hwf.activeSlots h1 m1
      have hs2 := hwf.activeSlots h2 m2
      rw [hidx, hs2] at hs1
      cases hs1
      rfl
    · intro hv
      have := hwf.uniqueValue h1 m1 h2 m2 hv
      rw [this]
  refine ⟨?_, hiv, ?_, ?_⟩
  · simp [pooledEq, hpool]
  · simp [ptr_eq, pooledEq, hpool]
  · intro f he
    have hidx : h1.index = h2.index := by simpa [pooledEq, hpool] using he
    simp [pooledHash, hidx]

/-- Witness for C10: the two live handles are the single cell of a one-cell
pool. -/
theorem c10_same_pool_equalities_coincide_witness :
    (pooledEq (⟨0, 5, 0⟩ : Data Nat) ⟨0, 5, 0⟩ = true ↔ (0 : Nat) = 0)
    ∧ ptr_eq (⟨0, 5, 0⟩ : Data Nat) ⟨0, 5, 0⟩ = pooledEq ⟨0, 5, 0⟩ ⟨0, 5, 0⟩ := by
  have hwf1 : (⟨[⟨0, 5, 0⟩], [some ⟨0, 5, 0⟩], []⟩ : Pool Nat).wf := by
    refine ⟨by simp, by simp, ?_, ?_, ?_, ?_⟩
    · intro c hc
      simp at hc
      subst hc
      rfl
    · intro i c hic
      cases i with
      | zero =>
        simp at hic
        subst hic
        exact ⟨rfl, by simp⟩
      | succ n => simp at hic
    · intro i hi
      simp at hi
    · intro c1 hc1 c2 hc2 _
      simp at hc1 hc2
      rw [hc1, hc2]
  have h := c10_same_pool_equalities_coincide _ hwf1 ⟨0, 5, 0⟩ ⟨0, 5, 0⟩
    (by simp) (by simp) rfl
  exact ⟨h.1, h.2.2.1⟩

/-- Accessing an already Initialized global pool never constructs a table:
any sequence of accesses keeps the state Initialized with the same hasher
and performs zero constructions. -/
theorem runAccesses_initialized (hh : H) (p : Pool V)
    (logics : List (Pool V → Pool V)) :
    ∃ q, runAccesses (GlobalPoolState.initialized hh p) logics
      = some ⟨GlobalPoolState.initialized hh q, 0⟩ := by
  induction logics generalizing p with
  | nil => exact ⟨p, rfl⟩
  | cons l rest ih =>
    obtain ⟨q, hq⟩ := ih (l p)
    refine ⟨q, ?_⟩
    simp [runAccesses, withActiveSymbols, hq]

/-- C8: a Global Instance's table is constructed at most once.  The first
access to a fresh global pool (in the LazyInitialize or StaticInitialize
state) performs the check-then-construct sequence, materializing the hasher
from the factory if one was supplied, and reports a construction; from the
Initialized state every access short-circuits with zero constructions; and
over any access sequence from a fresh global pool at most one construction
ever happens. -/
theorem c8_global_pool_lazy_initialization (H V : Type) (capacity : Nat)
    (f : Unit → H) (h0 : H) (logic : Pool V → Pool V)
    (logics : List (Pool V → Pool V)) :
    (withActiveSymbols (GlobalPoolState.lazyInit capacity f) logic
      = some ⟨GlobalPoolState.initialized (f ())
          (logic (Pool.withCapacityAndHasher V capacity)), true⟩)
    ∧ (withActiveSymbols (GlobalPoolState.staticInit capacity h0) logic
      = some ⟨GlobalPoolState.initialized h0
          (logic (Pool.withCapacityAndHasher V capacity)), true⟩)
    ∧ (∀ (hh : H) (p : Pool V), ∃ q,
        runAccesses (GlobalPoolState.initialized hh p) logics
          = some ⟨GlobalPoolState.initialized hh q, 0⟩)
    ∧ (∀ s cnt, runAccesses (GlobalPoolState.lazyInit capacity f) logics
        = some ⟨s, cnt⟩ → cnt ≤ 1 ∧ (logics ≠ [] → cnt = 1 ∧ isInitialized s = true))
    ∧ (∀ s cnt, runAccesses (GlobalPoolState.staticInit capacity h0) logics
        = some ⟨s, cnt⟩ → cnt ≤ 1 ∧ (logics ≠ [] → cnt = 1 ∧ isInitialized s = true)) := by
  refine ⟨rfl, rfl, fun hh p => runAccesses_initialized hh p logics, ?_, ?_⟩
  · intro s cnt he
    cases logics with
    | nil =>
      simp [runAccesses] at he
      simp [he.2.symm]
    | cons l rest =>
      obtain ⟨q, hq⟩ :=
        runAccesses_initialized (f ()) (l (Pool.withCapacityAndHasher V capacity)) rest
      rw [runAccesses] at he
      simp only [withActiveSymbols] at he
      rw [hq] at he
      simp at he
      rcases he with ⟨hs, hcnt⟩
      subst hs
      subst hcnt
      exact ⟨le_refl 1, fun _ => ⟨rfl, rfl⟩⟩
  · intro s cnt he
    cases logics with
    | nil =>
      simp [runAccesses] at he
      simp [he.2.symm]
    | cons l rest =>
      obtain ⟨q, hq⟩ :=
        runAccesses_initialized h0 (l (Pool.withCapacityAndHasher V capacity)) rest
      rw [runAccesses] at he
      simp only [withActiveSymbols] at he
      rw [hq] at he
      simp at he
      rcases he with ⟨hs, hcnt⟩
      subst hs
      subst hcnt
      exact ⟨le_refl 1, fun _ => ⟨rfl, rfl⟩⟩

/-- Witness for C8: a concrete global pool over Nat hashers and values, two
accesses; the run performs exactly one construction and ends Initialized. -/
theorem c8_global_pool_lazy_initialization_witness :
    (1 : Nat) ≤ 1 ∧ ((1 : Nat) = 1
      ∧ isInitialized (GlobalPoolState.initialized (0 : Nat) (⟨[], [], []⟩ : Pool Nat)) = true) :=
  have h := (c8_global_pool_lazy_initialization Nat Nat 0 (fun _ => 0) 0 id [id, id]).2.2.2.1
    (GlobalPoolState.initialized 0 ⟨[], [], []⟩) 1 rfl
  ⟨h.1, h.2 (by simp)⟩

/-- A populated accessor serves the stored handle forever: n calls return n
copies of the stored handle, with no resolution and no pool change. -/
theorem runStaticGets_populated [DecidableEq V] (si : StaticInit V) (h : Data V)
    (p : Pool V) (n : Nat) :
    runStaticGets (⟨si, some h⟩ : StaticPooled V) p n
      = ⟨List.replicate n h, ⟨si, some h⟩, p, 0⟩ := by
  induction n with
  | zero => rfl
  | succ m ih =>
    rw [runStaticGets]
    simp only [staticGet]
    rw [ih]
    simp [List.replicate_succ]

/-- C9: starting from an unpopulated Lazy Static Accessor, any positive
number of get calls resolves the bound value and invokes the pool's get
exactly once; every returned handle equals the handle stored in the
write-once cell and is ptr_eq to it, and after the first resolution no
further resolution occurs. -/
theorem c9_lazy_static_single_resolution [DecidableEq V] (si : StaticInit V)
    (p : Pool V) (n : Nat) (hn : 1 ≤ n) :
    (runStaticGets (⟨si, none⟩ : StaticPooled V) p n).resolutions = 1
    ∧ (∃ h0, (runStaticGets (⟨si, none⟩ : StaticPooled V) p n).state.cell = some h0
        ∧ (∀ h, h ∈ (runStaticGets (⟨si, none⟩ : StaticPooled V) p n).returned →
            h = h0 ∧ ptr_eq h h0 = true)) := by
  cases n with
  | zero => exact absurd hn (by decide)
  | succ m =>
    rw [runStaticGets]
    simp only [staticGet]
    rw [runStaticGets_populated]
    refine ⟨rfl, ⟨(Pool.get p (resolveInit si).1 (resolveInit si).2).1, rfl, ?_⟩⟩
    intro h hmem
    have heq : h = (Pool.get p (resolveInit si).1 (resolveInit si).2).1 := by
      rcases List.mem_cons.mp hmem with he | he
      · exact he
      · exact List.eq_of_mem_replicate he
    exact ⟨heq, by simp [heq, ptr_eq]⟩

/-- Witness for C9: a static accessor bound to pool identity 0 and value 5,
called twice against the empty pool. -/
theorem c9_lazy_static_single_resolution_witness :
    (runStaticGets (⟨StaticInit.staticValue 0 5, none⟩ : StaticPooled Nat)
      ⟨[], [], []⟩ 2).resolutions = 1
    ∧ (∃ h0, (runStaticGets (⟨StaticInit.staticValue 0 5, none⟩ : StaticPooled Nat)
          ⟨[], [], []⟩ 2).state.cell = some h0
        ∧ (∀ h, h ∈ (runStaticGets (⟨StaticInit.staticValue 0 5, none⟩ : StaticPooled Nat)
            ⟨[], [], []⟩ 2).returned → h = h0 ∧ ptr_eq h h0 = true)) :=
  c9_lazy_static_single_resolution (StaticInit.staticValue 0 5) ⟨[], [], []⟩ 2 (by decide)

/-! Helper lemmas for the concurrency model. -/

/-- strongOf only reads the cell list. -/
theorem strongOf_congr (g g2 : GState) (gen : Nat)
    (h : g.cells[gen]? = g2.cells[gen]?) : strongOf g gen = strongOf g2 gen := by
  unfold strongOf
  rw [h]

/-- bumpStrong at the bumped generation. -/
theorem bumpStrong_self {cells : List ArcCell} {gen : Nat} {c : ArcCell}
    (h : cells[gen]? = some c) :
    (bumpStrong cells gen)[gen]? = some ⟨c.strong + 1, c.freeing⟩ := by
  unfold bumpStrong
  rw [h]
  exact List.getElem?_set_self (List.getElem?_eq_some.mp h).1

/-- bumpStrong elsewhere. -/
theorem bumpStrong_ne {cells : List ArcCell} {gen gen' : Nat} (h : gen' ≠ gen) :
    (bumpStrong cells gen)[gen']? = cells[gen']? := by
  unfold bumpStrong
  cases hc : cells[gen]? with
  | some c => exact List.getElem?_set_ne (Ne.symm h)
  | none => rfl

/-- subStrong at the decremented generation. -/
theorem subStrong_self {cells : List ArcCell} {gen k : Nat} {c : ArcCell}
    (h : cells[gen]? = some c) :
    (subStrong cells gen k)[gen]? = some ⟨c.strong - k, c.freeing⟩ := by
  unfold subStrong
  rw [h]
  exact List.getElem?_set_self (List.getElem?_eq_some.mp h).1

/-- subStrong elsewhere. -/
theorem subStrong_ne {cells : List ArcCell} {gen gen' k : Nat} (h : gen' ≠ gen) :
    (subStrong cells gen k)[gen']? = cells[gen']? := by
  unfold subStrong
  cases hc : cells[gen]? with
  | some c => exact List.getElem?_set_ne (Ne.symm h)
  | none => rfl

/-- setFreeing never changes any strong count. -/
theorem setFreeing_strong (cells : List ArcCell) (gen : Nat) (b : Bool) (gen' : Nat) :
    ((setFreeing cells gen b)[gen']?).elim 0 ArcCell.strong
      = (cells[gen']?).elim 0 ArcCell.strong := by
  unfold setFreeing
  cases hc : cells[gen]? with
  | some c =>
    by_cases hg : gen' = gen
    · subst hg
      rw [List.getElem?_set_self (List.getElem?_eq_some.mp hc).1, hc]
      rfl
    · rw [List.getElem?_set_ne (Ne.symm hg)]
  | none => rfl

/-- bumpStrong preserves the cell-list length. -/
theorem bumpStrong_length (cells : List ArcCell) (gen : Nat) :
    (bumpStrong cells gen).length = cells.length := by
  unfold bumpStrong
  cases cells[gen]? <;> simp

/-- subStrong preserves the cell-list length. -/
theorem subStrong_length (cells : List ArcCell) (gen k : Nat) :
    (subStrong cells gen k).length = cells.length := by
  unfold subStrong
  cases cells[gen]? <;> simp

/-- setFreeing preserves the cell-list length. -/
theorem setFreeing_length (cells : List ArcCell) (gen : Nat) (b : Bool) :
    (setFreeing cells gen b).length = cells.length := by
  unfold setFreeing
  cases cells[gen]? <;> simp

/-- Replacing the element at a position of a list changes countP by the
difference between the predicate on the new and the old element, stated
additively. -/
theorem countP_set_add {α : Type} (l : List α) (tid : Nat) (t t' : α) (p : α → Bool)
    (ht : l[tid]? = some t) :
    l.countP p + (if p t' = true then 1 else 0)
      = (l.set tid t').countP p + (if p t = true then 1 else 0) := by
  obtain ⟨hlt, hget⟩ := List.getElem?_eq_some.mp ht
  rw [List.countP_set p l tid t' hlt, hget]
  by_cases hp : p t = true
  · have hpos : 1 ≤ l.countP p := by
      rw [Nat.succ_le, List.countP_pos_iff]
      exact ⟨t, hget ▸ List.getElem_mem hlt, hp⟩
    simp only [if_pos hp]
    omega
  · simp only [if_neg hp]
    omega

/-- strongOf via Option.elim. -/
theorem strongOf_mk (g : GState) (gen : Nat) :
    strongOf g gen = (g.cells[gen]?).elim 0 ArcCell.strong := by
  unfold strongOf
  cases g.cells[gen]? <;> rfl

/-- Appending one cell does not change the entries at other positions. -/
theorem getElem_append_one {α : Type} (l : List α) (x : α) (j : Nat)
    (h : j ≠ l.length) : (l ++ [x])[j]? = l[j]? := by
  rw [List.getElem?_append]
  by_cases hj : j < l.length
  · rw [if_pos hj]
  · rw [if_neg hj]
    have h1 : ([x] : List α)[j - l.length]? = none := by
      apply List.getElem?_eq_none
      simp
      omega
    have h2 : l[j]? = none := List.getElem?_eq_none (Nat.le_of_not_lt hj)
    rw [h1, h2]

/-- The refcount invariant holds initially. -/
theorem refInv_init (nthreads iters : Nat) : refInv (initState nthreads iters) := by
  refine ⟨?_, ?_, ?_⟩
  · intro gen
    have h1 : strongOf (initState nthreads iters) gen = 0 := by
      rw [strongOf_mk]
      rfl
    have h2 : extCount (initState nthreads iters) gen = 0 := by
      rw [extCount, List.countP_eq_zero]
      intro t htm
      have := List.eq_of_mem_replicate htm
      subst this
      simp [holdsGen]
    rw [h1, h2]
    rfl
  · intro t htm gen hh
    have := List.eq_of_mem_replicate htm
    subst this
    simp [holdsGen] at hh
  · intro gen hg
    cases hg

/-- One scheduler step preserves the refcount invariant. -/
theorem refInv_step (g : GState) (tid : Nat) (hinv : refInv g) : refInv (step g tid) := by
  obtain ⟨hstrong, hheld, hres⟩ := hinv
  unfold step
  cases ht : g.threads[tid]? with
  | none => exact ⟨hstrong, hheld, hres⟩
  | some t =>
  obtain ⟨hlt, hget⟩ := List.getElem?_eq_some.mp ht
  have htmem : t ∈ g.threads := hget ▸ List.getElem_mem hlt
  obtain ⟨ph, n0⟩ := t
  have hkeep : ∀ (cells' : List ArcCell) (ph' : Phase) (n' : Nat),
      (∀ gen' : Nat, (cells'[gen']?).elim 0 ArcCell.strong
          = (g.cells[gen']?).elim 0 ArcCell.strong) →
      cells'.length = g.cells.length →
      (∀ gen' : Nat, holdsGen ⟨ph', n'⟩ gen' = holdsGen ⟨ph, n0⟩ gen') →
      refInv ⟨cells', g.resident, g.threads.set tid ⟨ph', n'⟩⟩ := by
    intro cells' ph' n' hstr hlen hsame
    refine ⟨?_, ?_, ?_⟩
    · intro gen'
      have hc := countP_set_add g.threads tid ⟨ph, n0⟩ ⟨ph', n'⟩
        (fun tt => holdsGen tt gen') ht
      have hc2 : g.threads.countP (fun tt => holdsGen tt gen')
            + (if holdsGen ⟨ph', n'⟩ gen' = true then 1 else 0)
          = (g.threads.set tid ⟨ph', n'⟩).countP (fun tt => holdsGen tt gen')
            + (if holdsGen ⟨ph, n0⟩ gen' = true then 1 else 0) := hc
      rw [hsame gen'] at hc2
      have hold := hstrong gen'
      rw [strongOf_mk] at hold
      rw [strongOf_mk]
      dsimp only
      rw [hstr gen']
      rw [extCount] at hold
      rw [extCount]
      dsimp only
      omega
    · intro t2 ht2 gen' hh
      dsimp only at ht2 hh ⊢
      rw [hlen]
      rcases List.mem_or_eq_of_mem_set ht2 with h | h
      · exact hheld t2 h gen' hh
      · subst h
        exact hheld ⟨ph, n0⟩ htmem gen' ((hsame gen') ▸ hh)
    · intro gen' hg
      dsimp only at hg ⊢
      rw [hlen]
      exact hres gen' hg
  cases ph with
  | ready =>
    cases n0 with
    | zero => exact ⟨hstrong, hheld, hres⟩
    | succ n =>
      cases hr : g.resident with
      | some rgen =>
        have hrlen : rgen < g.cells.length := hres rgen hr
        have hcell : g.cells[rgen]? = some g.cells[rgen] := List.getElem?_eq_getElem hrlen
        refine ⟨?_, ?_, ?_⟩
        · intro gen'
          have hc := countP_set_add g.threads tid ⟨Phase.ready, n + 1⟩ ⟨Phase.holding rgen, n⟩
            (fun tt => holdsGen tt gen') ht
          have hc2 : g.threads.countP (fun tt => holdsGen tt gen')
                + (if (rgen == gen') = true then 1 else 0)
              = (g.threads.set tid ⟨Phase.holding rgen, n⟩).countP
                  (fun tt => holdsGen tt gen') := hc
          have hold := hstrong gen'
          rw [strongOf_mk] at hold
          rw [strongOf_mk]
          dsimp only
          rw [extCount] at hold
          rw [extCount]
          dsimp only
          rw [hr] at hold
          by_cases hgr : gen' = rgen
          · subst hgr
            rw [bumpStrong_self hcell]
            rw [hcell] at hold
            simp only [Option.elim_some] at hold ⊢
            simp only [if_pos trivial] at hold ⊢
            simp at hc2
            omega
          · rw [bumpStrong_ne hgr]
            have hne1 : ¬ (some rgen = some gen') := fun h => hgr (Option.some.inj h).symm
            simp only [if_neg hne1] at hold ⊢
            have hbeq : (rgen == gen') = false := by simp [Ne.symm hgr]
            simp [hbeq] at hc2
            omega
        · intro t2 ht2 gen' hh
          dsimp only at ht2 hh ⊢
          rw [bumpStrong_length]
          rcases List.mem_or_eq_of_mem_set ht2 with h | h
          · exact hheld t2 h gen' hh
          · subst h
            have hbg : (rgen == gen') = true := hh
            have : rgen = gen' := by simpa using hbg
            subst this
            exact hrlen
        · intro gen' hg
          dsimp only at hg
          rw [bumpStrong_length]
          have : rgen = gen' := Option.some.inj hg
          subst this
          exact hrlen
      | none =>
        refine ⟨?_, ?_, ?_⟩
        · intro gen'
          have hc := countP_set_add g.threads tid ⟨Phase.ready, n + 1⟩
            ⟨Phase.holding g.cells.length, n⟩ (fun tt => holdsGen tt gen') ht
          have hc2 : g.threads.countP (fun tt => holdsGen tt gen')
                + (if (g.cells.length == gen') = true then 1 else 0)
              = (g.threads.set tid ⟨Phase.holding g.cells.length, n⟩).countP
                  (fun tt => holdsGen tt gen') := hc
          have hold := hstrong gen'
          rw [strongOf_mk] at hold
          rw [strongOf_mk]
          dsimp only
          rw [extCount] at hold
          rw [extCount]
          dsimp only
          rw [hr] at hold
          have hnr : ¬ ((none : Option Nat) = some gen') := fun h => nomatch h
          simp only [if_neg hnr] at hold
          by_cases hgL : gen' = g.cells.length
          · subst hgL
            rw [List.getElem?_concat_length]
            simp only [Option.elim_some]
            have hext0 : g.threads.countP (fun tt => holdsGen tt g.cells.length) = 0 := by
              rw [List.countP_eq_zero]
              intro t2 ht2 hh2
              exact absurd (hheld t2 ht2 _ hh2) (lt_irrefl _)
            simp at hc2
            simp only [if_pos trivial]
            omega
          · rw [getElem_append_one g.cells ⟨3, false⟩ gen' hgL]
            have hne1 : ¬ (some g.cells.length = some gen') :=
              fun h => hgL (Option.some.inj h).symm
            simp only [if_neg hne1]
            have hbeq : (g.cells.length == gen') = false := by simp [Ne.symm hgL]
            simp [hbeq] at hc2
            omega
        · intro t2 ht2 gen' hh
          dsimp only at ht2 hh ⊢
          have hlen2 : (g.cells ++ [(⟨3, false⟩ : ArcCell)]).length = g.cells.length + 1 := by
            simp
          rw [hlen2]
          rcases List.mem_or_eq_of_mem_set ht2 with h | h
          · exact Nat.lt_succ_of_lt (hheld t2 h gen' hh)
          · subst h
            have hbg : (g.cells.length == gen') = true := hh
            have : g.cells.length = gen' := by simpa using hbg
            subst this
            exact Nat.lt_succ_self _
        · intro gen' hg
          dsimp only at hg
          have hlen2 : (g.cells ++ [(⟨3, false⟩ : ArcCell)]).length = g.cells.length + 1 := by
            simp
          rw [hlen2]
          have : g.cells.length = gen' := Option.some.inj hg
          subst this
          exact Nat.lt_succ_self _
  | holding gen =>
    by_cases hs : strongOf g gen = 3
    · simp only [if_pos hs]
      exact hkeep g.cells (Phase.tryCas gen) n0 (fun _ => rfl) rfl (fun _ => rfl)
    · simp only [if_neg hs]
      exact hkeep g.cells (Phase.decRef gen) n0 (fun _ => rfl) rfl (fun _ => rfl)
  | tryCas gen =>
    by_cases hf : freeingOf g gen = true
    · simp only [if_pos hf]
      exact hkeep g.cells (Phase.decRef gen) n0 (fun _ => rfl) rfl (fun _ => rfl)
    · simp only [if_neg hf]
      exact hkeep (setFreeing g.cells gen true) (Phase.locked gen) n0
        (fun gen' => setFreeing_strong g.cells gen true gen')
        (setFreeing_length g.cells gen true) (fun _ => rfl)
  | locked gen =>
    by_cases hs3 : strongOf g gen > 3
    · simp only [if_pos hs3]
      exact hkeep (setFreeing g.cells gen false) (Phase.decRef gen) n0
        (fun gen' => setFreeing_strong g.cells gen false gen')
        (setFreeing_length g.cells gen false) (fun _ => rfl)
    · simp only [if_neg hs3]
      by_cases hrg : g.resident = some gen
      · simp only [if_pos hrg]
        have hglen : gen < g.cells.length := hres gen hrg
        have hcell : g.cells[gen]? = some g.cells[gen] := List.getElem?_eq_getElem hglen
        refine ⟨?_, ?_, ?_⟩
        · intro gen'
          have hc := countP_set_add g.threads tid ⟨Phase.locked gen, n0⟩ ⟨Phase.decRef gen, n0⟩
            (fun tt => holdsGen tt gen') ht
          have hc2 : g.threads.countP (fun tt => holdsGen tt gen')
                + (if (gen == gen') = true then 1 else 0)
              = (g.threads.set tid ⟨Phase.decRef gen, n0⟩).countP
                  (fun tt => holdsGen tt gen')
                + (if (gen == gen') = true then 1 else 0) := hc
          have hold := hstrong gen'
          rw [strongOf_mk] at hold
          rw [strongOf_mk]
          dsimp only
          rw [extCount] at hold
          rw [extCount]
          dsimp only
          rw [hrg] at hold
          have hnr : ¬ ((none : Option Nat) = some gen') := fun h => nomatch h
          simp only [if_neg hnr]
          by_cases hgg : gen' = gen
          · subst hgg
            rw [subStrong_self hcell]
            rw [hcell] at hold
            simp only [Option.elim_some] at hold ⊢
            simp only [if_pos trivial] at hold
            omega
          · rw [subStrong_ne hgg]
            have hne1 : ¬ (some gen = some gen') := fun h => hgg (Option.some.inj h).symm
            simp only [if_neg hne1] at hold
            omega
        · intro t2 ht2 gen' hh
          dsimp only at ht2 hh ⊢
          rw [subStrong_length]
          rcases List.mem_or_eq_of_mem_set ht2 with h | h
          · exact hheld t2 h gen' hh
          · subst h
            have hbg : (gen == gen') = true := hh
            have : gen = gen' := by simpa using hbg
            subst this
            exact hglen
        · intro gen' hg
          dsimp only at hg
          exact absurd hg (fun h => nomatch h)
      · simp only [if_neg hrg]
        exact hkeep g.cells (Phase.decRef gen) n0 (fun _ => rfl) rfl (fun _ => rfl)
  | decRef gen =>
    have hglen : gen < g.cells.length :=
      hheld ⟨Phase.decRef gen, n0⟩ htmem gen (by simp [holdsGen])
    have hcell : g.cells[gen]? = some g.cells[gen] := List.getElem?_eq_getElem hglen
    refine ⟨?_, ?_, ?_⟩
    · intro gen'
      have hc := countP_set_add g.threads tid ⟨Phase.decRef gen, n0⟩ ⟨Phase.ready, n0⟩
        (fun tt => holdsGen tt gen') ht
      have hc2 : g.threads.countP (fun tt => holdsGen tt gen')
          = (g.threads.set tid ⟨Phase.ready, n0⟩).countP (fun tt => holdsGen tt gen')
            + (if (gen == gen') = true then 1 else 0) := hc
      have hold := hstrong gen'
      rw [strongOf_mk] at hold
      rw [strongOf_mk]
      dsimp only
      rw [extCount] at hold
      rw [extCount]
      dsimp only
      by_cases hgg : gen' = gen
      · subst hgg
        rw [subStrong_self hcell]
        rw [hcell] at hold
        simp only [Option.elim_some] at hold ⊢
        simp at hc2
        omega
      · rw [subStrong_ne hgg]
        have hbeq : (gen == gen') = false := by simp [Ne.symm hgg]
        simp [hbeq] at hc2
        omega
    · intro t2 ht2 gen' hh
      dsimp only at ht2 hh ⊢
      rw [subStrong_length]
      rcases List.mem_or_eq_of_mem_set ht2 with h | h
      · exact hheld t2 h gen' hh
      · subst h
        cases hh
    · intro gen' hg
      dsimp only at hg ⊢
      rw [subStrong_length]
      exact hres gen' hg

/-- Folding scheduler steps preserves the refcount invariant. -/
theorem refInv_foldl (g : GState) (sched : List Nat) (h : refInv g) :
    refInv (sched.foldl step g) := by
  induction sched generalizing g with
  | nil => exact h
  | cons s rest ih => exact ih (step g s) (refInv_step g s h)

/-- C3: in every reachable state of the release-protocol model, a resident
cell's strong count is exactly 2 plus the number of external handles: the
table holds exactly two reference-counted owners of the cell.  In the pool
model those two owners are one copy in the active set and one in the slot
array: a miss in Pool.get stores the freshly created cell in both.  This is
the accounting that makes the release protocol's threshold of strong count
3 (the dropping handle plus the two table-held owners) correct. -/
theorem c3_two_table_owners (V : Type) [DecidableEq V] (nthreads iters : Nat)
    (sched : List Nat) (gen : Nat)
    (hresident : (run (initState nthreads iters) sched).resident = some gen) :
    strongOf (run (initState nthreads iters) sched) gen
      = 2 + extCount (run (initState nthreads iters) sched) gen
    ∧ (∀ (p : Pool V) (pid : Nat) (v : V), p.wf →
        p.active.find? (fun c => decide (c.value = v)) = none →
        (Pool.get p pid v).1 ∈ (Pool.get p pid v).2.active
        ∧ (Pool.get p pid v).2.slots[(Pool.get p pid v).1.index]? =
            some (some (Pool.get p pid v).1)) := by
  constructor
  · rw [run] at hresident ⊢
    have h := (refInv_foldl (initState nthreads iters) sched
      (refInv_init nthreads iters)).1 gen
    rw [if_pos hresident] at h
    omega
  · intro p pid v hwf hf
    unfold Pool.get
    rw [hf]
    cases hfs : p.free_slots with
    | cons i rest =>
      refine ⟨List.mem_cons_self _ _, ?_⟩
      have hi : p.slots[i]? = some none :=
        hwf.freeEmpty i (by rw [hfs]; exact List.mem_cons_self i rest)
      exact List.getElem?_set_self (List.getElem?_eq_some.mp hi).1
    | nil =>
      refine ⟨List.mem_cons_self _ _, ?_⟩
      have hlen : p.slots.length < (p.slots ++ [none]).length := by simp
      exact List.getElem?_set_self hlen

/-- Witness for C3: one thread, one iteration, one scheduled step (the get):
the single cell is resident with strong count 3 = 2 table owners + 1
external handle; and the miss path of get on the empty pool stores the new
cell in both the active set and the slot array. -/
theorem c3_two_table_owners_witness :
    strongOf (run (initState 1 1) [0]) 0 = 2 + extCount (run (initState 1 1) [0]) 0
    ∧ ((Pool.get (⟨[], [], []⟩ : Pool Nat) 0 7).1 ∈ (Pool.get (⟨[], [], []⟩ : Pool Nat) 0 7).2.active
      ∧ (Pool.get (⟨[], [], []⟩ : Pool Nat) 0 7).2.slots[(Pool.get (⟨[], [], []⟩ : Pool Nat) 0 7).1.index]? =
          some (some (Pool.get (⟨[], [], []⟩ : Pool Nat) 0 7).1)) :=
  have h := c3_two_table_owners Nat 1 1 [0] 0 (by decide)
  ⟨h.1, h.2 ⟨[], [], []⟩ 0 7 wf_empty (by decide)⟩

/-- C7 failing trace: two threads each perform one get-then-drop of the same
value K.  Under the schedule T0 get (count 3), T1 get (count 4), T0 reads
the strong count (4, so it skips the release attempt), T1 reads the strong
count (still 4, skips too), T0 decrements (3), T1 decrements (2), the run
ends with both threads finished and no external handle, yet the cell stays
resident with strong count 2 (only the two table-held owners): pooled()
still contains K, contradicting the no-leak property the drop protocol is
meant to provide. -/
theorem c7_no_leak_failing_trace :
    (run (initState 2 1) [0, 1, 0, 1, 0, 1]).threads.all threadDone = true
    ∧ extCount (run (initState 2 1) [0, 1, 0, 1, 0, 1]) 0 = 0
    ∧ (run (initState 2 1) [0, 1, 0, 1, 0, 1]).resident = some 0
    ∧ strongOf (run (initState 2 1) [0, 1, 0, 1, 0, 1]) 0 = 2
    ∧ pooledContainsK (run (initState 2 1) [0, 1, 0, 1, 0, 1]) = true := by
  decide
